import Mathlib

/-!
Verification of the qoslimiter bandwidth-shaping listener wrapper.

Shallow embedding of pkg/qoslistener (conn.go, qoslistener.go, utils.go).
The token-bucket limiter itself is the external library golang.org/x/time/rate
(not part of this repository); where a claim depends on its behaviour, the
wait contract is modelled from the specification and the outcomes of the two
WaitN calls per chunk are supplied by an environment oracle.
-/

/-- Rate of a token-bucket limiter (the x/time/rate Limit type, a float64).
In this program the only rate values ever configured are rate.Inf — which the
library defines as Limit(math.MaxFloat64), exactly the value NewListener and
SetLimits install for unlimited traffic — and Limit(b) for a Go int b with
0 ≤ b < 2^31.  Those integers are exactly representable in float64 and
distinct from MaxFloat64, so the float is modelled faithfully by this
two-constructor type, with the comparison Limit() != rate.Inf becoming a
comparison against the inf constructor. -/
inductive RateLimit where
  | inf : RateLimit
  | finite (bps : ℤ) : RateLimit
deriving DecidableEq

/-- Configuration of a rate.Limiter as observed through its Limit() and
Burst() accessors.  Burst is a Go int in the library, but every burst value
constructed anywhere in this package (findBurst, SetLimits, NewListener) is
non-negative, so it is modelled as ℕ; on non-negative values Go integer
division by 10000 coincides with ℕ division. -/
structure Limiter where
  limit : RateLimit
  burst : ℕ
deriving DecidableEq

/-- qoslistener.go: the AllowAllTraffic sentinel. -/
def AllowAllTraffic : ℤ := -1

/-- utils.go findLimit: bandwidth at most the sentinel means unlimited
(rate.Limit(math.MaxFloat64), i.e. rate.Inf); otherwise rate.Limit(bandwidth). -/
def findLimit (bandwidth : ℤ) : RateLimit :=
  if bandwidth ≤ AllowAllTraffic then RateLimit.inf else RateLimit.finite bandwidth

/-- utils.go findBurst: bandwidth at most the sentinel means burst 0;
otherwise int(bandwidth).  The else branch is only reached with
bandwidth ≥ 0, where Int.toNat is the identity embedding. -/
def findBurst (bandwidth : ℤ) : ℕ :=
  if bandwidth ≤ AllowAllTraffic then 0 else bandwidth.toNat

/-- conn.go newConn / updateRateLimiter: the per-connection limiter
configuration built from a bandwidth value, rate.NewLimiter(findLimit(b),
findBurst(b)) at creation and SetLimit(findLimit(b)); SetBurst(findBurst(b))
at reconfiguration. -/
def pcLimiterFor (bandwidth : ℤ) : Limiter :=
  ⟨findLimit bandwidth, findBurst bandwidth⟩

/-- qoslistener.go SetLimits: the fresh global limiter installed for a given
globalBps — rate.NewLimiter(rate.Limit(math.MaxFloat64), 0) when
globalBps ≤ AllowAllTraffic, else rate.NewLimiter(rate.Limit(globalBps),
globalBps). -/
def setLimitsGlobalLimiter (globalBps : ℤ) : Limiter :=
  if globalBps ≤ AllowAllTraffic then ⟨RateLimit.inf, 0⟩
  else ⟨RateLimit.finite globalBps, globalBps.toNat⟩

/-- conn.go findBufferSize.  The two Go early returns become nested if-else;
bufferSize starts at the remaining byte count and is only ever shrunk before
the final zero-to-one bump.  Go computes connectionLimiterFraction before the
first check, a pure computation kept in the same place here. -/
def findBufferSize (connectionLimiter globalLimiter : Limiter) (initial : ℕ) : ℕ :=
  let connectionLimiterFraction := connectionLimiter.burst / 10000
  if connectionLimiter.limit ≠ RateLimit.inf ∧ connectionLimiter.burst = 0 then 0
  else
    let bufferSize1 :=
      if connectionLimiter.limit ≠ RateLimit.inf ∧ connectionLimiter.burst < initial
      then connectionLimiterFraction else initial
    let globalLimiterFraction := globalLimiter.burst / 10000
    if globalLimiter.limit ≠ RateLimit.inf ∧ globalLimiter.burst = 0 then 0
    else
      let bufferSize2 :=
        if globalLimiter.limit ≠ RateLimit.inf ∧ globalLimiterFraction < bufferSize1
        then globalLimiterFraction else bufferSize1
      if bufferSize2 = 0 then 1 else bufferSize2

/-- The chunk-sizing policy written from the wording of the specification
(for comparison with findBufferSize, which is translated from the source):
return 0 if C has finite rate and burst 0; else start from candidate R and
shrink it to C.burst / 10000 when C has finite rate and the candidate exceeds
C.burst; then return 0 if G has finite rate and burst 0; else shrink the
candidate to G.burst / 10000 when G has finite rate and the candidate exceeds
G.burst / 10000; finally, a candidate of 0 is raised to 1. -/
def chunkSizeSpec (C G : Limiter) (R : ℕ) : ℕ :=
  if C.limit ≠ RateLimit.inf ∧ C.burst = 0 then 0
  else
    let c1 := if C.limit ≠ RateLimit.inf ∧ C.burst < R then C.burst / 10000 else R
    if G.limit ≠ RateLimit.inf ∧ G.burst = 0 then 0
    else
      let c2 := if G.limit ≠ RateLimit.inf ∧ G.burst / 10000 < c1 then G.burst / 10000 else c1
      if c2 = 0 then 1 else c2

/-- Modelled from the spec: the grant condition of the external token-bucket
limiter library (spec section 4.1; golang.org/x/time/rate is not under src/).
A request for n tokens can eventually be granted iff the rate is infinite
(the limiter short-circuits every request) or the bucket can ever hold n
tokens, i.e. n ≤ burst: available tokens saturate at burst, so with a finite
rate a request exceeding burst is never granted. -/
def canEverGrant (lim : Limiter) (n : ℕ) : Bool :=
  decide (lim.limit = RateLimit.inf) || decide (n ≤ lim.burst)

/-- C1: findBufferSize computes, for every per-connection limiter C, global
limiter G and remaining byte count R ≥ 1, exactly the chunk-sizing policy of
the specification, in the specification's order. -/
theorem findBufferSize_eq_chunkSizeSpec (C G : Limiter) (R : ℕ) (hR : 1 ≤ R) :
    findBufferSize C G R = chunkSizeSpec C G R := rfl

/-- Witness for C1 at concrete inputs. -/
theorem findBufferSize_eq_chunkSizeSpec_witness :
    (1 ≤ 7 ∧
      findBufferSize ⟨RateLimit.finite 20000, 20000⟩ ⟨RateLimit.finite 50000, 50000⟩ 7 =
        chunkSizeSpec ⟨RateLimit.finite 20000, 20000⟩ ⟨RateLimit.finite 50000, 50000⟩ 7) :=
  ⟨by decide,
    findBufferSize_eq_chunkSizeSpec ⟨RateLimit.finite 20000, 20000⟩
      ⟨RateLimit.finite 50000, 50000⟩ 7 (by decide)⟩

/-- C2: every bandwidth value b ≤ −1 (sentinel AllowAllTraffic = −1) yields a
limiter with infinite rate and burst 0, both for the per-connection limiter
built by findLimit/findBurst and for the global limiter installed by
SetLimits; every positive value N yields rate N tokens/sec and burst N
tokens. -/
theorem bandwidth_encoding (b : ℤ) :
    (b ≤ -1 →
      pcLimiterFor b = ⟨RateLimit.inf, 0⟩ ∧
      setLimitsGlobalLimiter b = ⟨RateLimit.inf, 0⟩) ∧
    (0 < b →
      pcLimiterFor b = ⟨RateLimit.finite b, b.toNat⟩ ∧
      setLimitsGlobalLimiter b = ⟨RateLimit.finite b, b.toNat⟩ ∧
      (b.toNat : ℤ) = b) := by
  constructor
  · intro hb
    have hb1 : b ≤ AllowAllTraffic := hb
    simp [pcLimiterFor, setLimitsGlobalLimiter, findLimit, findBurst, hb1]
  · intro hb
    have hb1 : ¬ b ≤ AllowAllTraffic := by
      simp only [AllowAllTraffic]
      omega
    refine ⟨?_, ?_, ?_⟩
    · simp [pcLimiterFor, findLimit, findBurst, hb1]
    · simp [setLimitsGlobalLimiter, hb1]
    · omega

/-- Witness for C2 at b = −5 (unlimited branch) and b = 7 (positive branch). -/
theorem bandwidth_encoding_witness :
    (pcLimiterFor (-5) = ⟨RateLimit.inf, 0⟩ ∧
      setLimitsGlobalLimiter (-5) = ⟨RateLimit.inf, 0⟩) ∧
    (pcLimiterFor 7 = ⟨RateLimit.finite 7, (7 : ℤ).toNat⟩ ∧
      setLimitsGlobalLimiter 7 = ⟨RateLimit.finite 7, (7 : ℤ).toNat⟩ ∧
      ((7 : ℤ).toNat : ℤ) = 7) :=
  ⟨(bandwidth_encoding (-5)).1 (by decide), (bandwidth_encoding 7).2 (by decide)⟩

/-- C3 counterexample: for bandwidth 0, the configured limiter has the finite
rate 0, not an infinite rate as the claim states — findLimit(0) is
rate.Limit(0), which differs from rate.Inf, and SetLimits(0) likewise builds
rate.NewLimiter(rate.Limit(0), 0). -/
theorem bandwidth_zero_counterexample :
    findLimit 0 = RateLimit.finite 0 ∧
    findLimit 0 ≠ RateLimit.inf ∧
    setLimitsGlobalLimiter 0 = ⟨RateLimit.finite 0, 0⟩ ∧
    setLimitsGlobalLimiter 0 ≠ ⟨RateLimit.inf, 0⟩ := by
  decide

/-- C3 amended: for the bandwidth value 0, the limiter configured from it
(per-connection via findLimit/findBurst, or global via SetLimits) has the
finite rate 0 and burst 0 — still a blocked state: no token request of size
≥ 1 can ever be granted. -/
theorem bandwidth_zero_blocked (n : ℕ) (hn : 1 ≤ n) :
    pcLimiterFor 0 = ⟨RateLimit.finite 0, 0⟩ ∧
    setLimitsGlobalLimiter 0 = ⟨RateLimit.finite 0, 0⟩ ∧
    canEverGrant (pcLimiterFor 0) n = false ∧
    canEverGrant (setLimitsGlobalLimiter 0) n = false := by
  refine ⟨by decide, by decide, ?_, ?_⟩ <;>
    simp [canEverGrant, pcLimiterFor, setLimitsGlobalLimiter, findLimit, findBurst,
      AllowAllTraffic] <;>
    omega

/-- Witness for the amended C3 at n = 1. -/
theorem bandwidth_zero_blocked_witness :
    pcLimiterFor 0 = ⟨RateLimit.finite 0, 0⟩ ∧
    setLimitsGlobalLimiter 0 = ⟨RateLimit.finite 0, 0⟩ ∧
    canEverGrant (pcLimiterFor 0) 1 = false ∧
    canEverGrant (setLimitsGlobalLimiter 0) 1 = false :=
  bandwidth_zero_blocked 1 (by decide)

/-- Go error results of the delegate connection's Read/Write: io.EOF or any
other error (identified by an abstract code). -/
inductive GoErr where
  | eof : GoErr
  | other (code : ℕ) : GoErr
deriving DecidableEq

/-- Error component of the value returned by rateLimitOperation: the error of
the first failing WaitN on the per-connection or global limiter (cancellation
of the execution context, identified by an abstract code), or the delegate
connection error that was propagated. -/
inductive RLError where
  | fromWaitPC (code : ℕ) : RLError
  | fromWaitGL (code : ℕ) : RLError
  | conn (e : GoErr) : RLError
deriving DecidableEq

/-- The mutable per-connection fields of qosconn touched by
rateLimitOperation: the cached bandwidth c.pcBandwidth and the configuration
of c.pcLimiter. -/
structure ConnState where
  pcBandwidth : ℤ
  pcLimiter : Limiter
deriving DecidableEq

/-- Observable events of one run of rateLimitOperation, in program order.
chunkStart is instrumentation recording, at the top of iteration i, the
atomically loaded listener bandwidth, the per-connection state after the
reconfiguration check, the atomically loaded global limiter, and the
remaining byte count len(b) − processed.  waitPC/waitGL record each WaitN
call with its requested token count and outcome (none = success, some code =
error).  ioOp records the delegate Read/Write call with the requested chunk
length, the byte count it returned and its error. -/
inductive Event where
  | chunkStart (i : ℕ) (listenerBw : ℤ) (st : ConnState) (gl : Limiter) (remaining : ℕ)
  | waitPC (n : ℕ) (outcome : Option ℕ)
  | waitGL (n : ℕ) (outcome : Option ℕ)
  | ioOp (req : ℕ) (n : ℕ) (e : Option GoErr)
deriving DecidableEq

/-- Environment of one rateLimitOperation call, indexed by iteration number:
the value of the listener's pcBandwidth at each atomic load, the global
limiter at each atomic pointer load (SetLimits may swap both between
iterations), the outcome of each WaitN call on the per-connection and global
limiters (modelled from the spec: the external limiter's wait_n returns
success or a cancellation error), and the delegate connection's reply
(bytes, error) to a Read/Write request of a given length.  Read and Write
share the loop; the delegate oracle stands for watchedConn.Read or
watchedConn.Write according to the operation. -/
structure Env where
  listenerBw : ℕ → ℤ
  listenerGl : ℕ → Limiter
  waitPC : ℕ → ℕ → Option ℕ
  waitGL : ℕ → ℕ → Option ℕ
  delegate : ℕ → ℕ → ℕ × Option GoErr

/-- conn.go rateLimitOperation, fuel-bounded.  Arguments after the buffer
length L: remaining fuel (model artifact bounding the number of loop
iterations; a result of none means the loop was still running), the iteration
index, the connection state, processed, and connErr.  Returns Go's
(int, error) pair (none while still looping) together with the event trace.
The loop condition is checked before fuel is consumed, so exits taken by the
code itself never depend on fuel. -/
def rlLoop (env : Env) (L : ℕ) :
    ℕ → ℕ → ConnState → ℕ → Option GoErr → Option (ℕ × Option RLError) × List Event
  | 0, _, _, processed, connErr =>
    if processed < L ∧ connErr ≠ some GoErr.eof then (none, [])
    else (some (processed, connErr.map RLError.conn), [])
  | fuel + 1, i, st, processed, connErr =>
    if processed < L ∧ connErr ≠ some GoErr.eof then
        let parentBandwidth := env.listenerBw i
        let st1 := if parentBandwidth ≠ st.pcBandwidth
          then ⟨parentBandwidth, pcLimiterFor parentBandwidth⟩ else st
        let gl := env.listenerGl i
        let bufferSize := findBufferSize st1.pcLimiter gl (L - processed)
        let ev0 := Event.chunkStart i parentBandwidth st1 gl (L - processed)
        match env.waitPC i bufferSize with
        | some e => (some (0, some (RLError.fromWaitPC e)),
            [ev0, Event.waitPC bufferSize (some e)])
        | none =>
          match env.waitGL i bufferSize with
          | some e => (some (0, some (RLError.fromWaitGL e)),
              [ev0, Event.waitPC bufferSize none, Event.waitGL bufferSize (some e)])
          | none =>
            let r := env.delegate i bufferSize
            let evs := [ev0, Event.waitPC bufferSize none, Event.waitGL bufferSize none,
              Event.ioOp bufferSize r.1 r.2]
            match r.2 with
            | some (GoErr.other e) => (some (0, some (RLError.conn (GoErr.other e))), evs)
            | some GoErr.eof =>
              let rest := rlLoop env L fuel (i + 1) st1 (processed + r.1) (some GoErr.eof)
              (rest.1, evs ++ rest.2)
            | none =>
              let rest := rlLoop env L fuel (i + 1) st1 (processed + r.1) none
              (rest.1, evs ++ rest.2)
    else
      (some (processed, connErr.map RLError.conn), [])

/-- conn.go Read/Write entry: rateLimitOperation starts with processed = 0
and a nil connection error. -/
def rateLimitOperation (env : Env) (L fuel : ℕ) (st : ConnState) :
    Option (ℕ × Option RLError) × List Event :=
  rlLoop env L fuel 0 st 0 none

/-- Total bytes the delegate connection transferred in a trace. -/
def ioBytes : List Event → ℕ
  | [] => 0
  | Event.ioOp _ n _ :: rest => n + ioBytes rest
  | _ :: rest => ioBytes rest

/-- C9: a Read or Write with an empty buffer (L = 0) returns (0, nil) at
once, for any environment, fuel and connection state, with an empty trace:
no tokens are requested from either limiter and the underlying connection is
never invoked. -/
theorem empty_buffer_returns_immediately (env : Env) (fuel : ℕ) (st : ConnState) :
    rateLimitOperation env 0 fuel st = (some (0, none), []) := by
  cases fuel <;> simp [rateLimitOperation, rlLoop]

/-- Modelled from the spec: wait_n on the external limiter blocks forever iff
the rate is finite, the burst is 0 and at least one token is requested
(glossary: blocked mode makes every non-zero request block forever; section
4.1: wait_n(0) succeeds immediately, and an infinite rate short-circuits
every request). -/
def waitBlocksForever (lim : Limiter) (n : ℕ) : Bool :=
  decide (lim.limit ≠ RateLimit.inf) && decide (lim.burst = 0) && decide (1 ≤ n)

/-- Environment of a connection in the blocked configuration: the listener's
per-connection bandwidth is pinned at 0, the global limiter is unlimited,
every WaitN succeeds and the delegate answers every request with (0, nil) —
the reply of a zero-length Read/Write on a live connection. -/
def envBlocked : Env :=
  ⟨fun _ => 0, fun _ => ⟨RateLimit.inf, 0⟩, fun _ _ => none, fun _ _ => none,
    fun _ _ => (0, none)⟩

/-- Connection state whose cached bandwidth 0 matches its limiter. -/
def stBlocked : ConnState := ⟨0, pcLimiterFor 0⟩

/-- A trace extended on the left keeps its final event. -/
theorem exists_append_tail {α : Type} {ys zs : List α} {a : α} (xs : List α)
    (h : ys = zs ++ [a]) : ∃ pre, xs ++ ys = pre ++ [a] :=
  ⟨xs ++ zs, by rw [h, List.append_assoc]⟩

/-- Sum of the delegate byte counts over appended traces. -/
theorem ioBytes_append (a b : List Event) : ioBytes (a ++ b) = ioBytes a + ioBytes b := by
  induction a with
  | nil => simp [ioBytes]
  | cons e rest ih => cases e <;> simp [ioBytes, ih] <;> omega

/-- C4 counterexample: take a Write of 5 bytes on a connection whose
per-connection bandwidth is 0 (a blocked configuration — findBufferSize
returns 0).  In that very iteration both WaitN calls are made with n = 0 and
succeed — a wait for 0 tokens never blocks, per the limiter contract — and
the delegate operation IS performed (event ioOp 0 0 none in the trace), so
the operation neither blocks indefinitely at token acquisition nor skips the
delegate read/write of that iteration. -/
theorem blocked_chunk_counterexample :
    findBufferSize (pcLimiterFor 0) ⟨RateLimit.inf, 0⟩ 5 = 0 ∧
    waitBlocksForever (pcLimiterFor 0) 0 = false ∧
    (rlLoop envBlocked 5 1 0 stBlocked 0 none).2 =
      [Event.chunkStart 0 0 stBlocked ⟨RateLimit.inf, 0⟩ 5,
       Event.waitPC 0 none, Event.waitGL 0 none, Event.ioOp 0 0 none] := by
  refine ⟨rfl, rfl, rfl⟩

/-- In the blocked per-connection configuration the chunk size is 0
whatever the global limiter and the remaining byte count are. -/
theorem findBufferSize_pc0 (G : Limiter) (r : ℕ) :
    findBufferSize (pcLimiterFor 0) G r = 0 := rfl

/-- C4 amended: in every iteration in which findBufferSize returns 0 — here
the blocked configuration with per-connection bandwidth 0 — the operation
does not block at token acquisition: both waits are invoked with n = 0 and
succeed, the delegate read/write IS performed, with a zero-length buffer, and
the loop makes no progress: no byte is ever transferred and the call never
returns, at any fuel. -/
theorem blocked_chunk_spins (env : Env) (L : ℕ) (hL : 1 ≤ L)
    (hbw : ∀ j, env.listenerBw j = 0)
    (hwp : ∀ j n, env.waitPC j n = none) (hwg : ∀ j n, env.waitGL j n = none)
    (hdel : ∀ j n, env.delegate j n = (0, none)) :
    ∀ fuel i, (rlLoop env L fuel i stBlocked 0 none).1 = none ∧
      ioBytes (rlLoop env L fuel i stBlocked 0 none).2 = 0 ∧
      (1 ≤ fuel →
        Event.waitPC 0 none ∈ (rlLoop env L fuel i stBlocked 0 none).2 ∧
        Event.ioOp 0 0 none ∈ (rlLoop env L fuel i stBlocked 0 none).2) := by
  have hcond : 0 < L ∧ (none : Option GoErr) ≠ some GoErr.eof := by
    exact ⟨hL, by simp⟩
  intro fuel
  induction fuel with
  | zero =>
    intro i
    simp [rlLoop, hcond, ioBytes]
  | succ fuel ih =>
    intro i
    simp only [rlLoop, if_pos hcond, hbw, hwp, hwg, hdel, stBlocked, ne_eq,
      not_true_eq_false, if_false, Nat.sub_zero, findBufferSize_pc0, ite_self]
    have h00 : (0 : ℕ) + 0 = 0 := rfl
    rw [h00]
    have hmain := ih (i + 1)
    rw [stBlocked] at hmain
    refine ⟨hmain.1, ?_, ?_⟩
    · rw [ioBytes_append, hmain.2.1]
      simp [ioBytes]
    · intro _
      exact ⟨by simp, by simp⟩

/-- Witness for the amended C4: the blocked environment at L = 5, fuel 2. -/
theorem blocked_chunk_spins_witness :
    (rlLoop envBlocked 5 2 0 stBlocked 0 none).1 = none ∧
    ioBytes (rlLoop envBlocked 5 2 0 stBlocked 0 none).2 = 0 ∧
    (1 ≤ 2 →
      Event.waitPC 0 none ∈ (rlLoop envBlocked 5 2 0 stBlocked 0 none).2 ∧
      Event.ioOp 0 0 none ∈ (rlLoop envBlocked 5 2 0 stBlocked 0 none).2) :=
  blocked_chunk_spins envBlocked 5 (by decide) (fun _ => rfl) (fun _ _ => rfl)
    (fun _ _ => rfl) (fun _ _ => rfl) 2 0

/-- C6: if a WaitN on the per-connection limiter or on the global limiter
returns an error during any chunk, the whole operation aborts immediately —
the failing wait is the last event of the trace — and returns (0, that
error), regardless of how many bytes earlier chunks of the same call already
transferred. -/
theorem wait_error_aborts (env : Env) (L : ℕ) :
    ∀ fuel i st processed connErr n e,
      (Event.waitPC n (some e) ∈ (rlLoop env L fuel i st processed connErr).2 →
        (rlLoop env L fuel i st processed connErr).1 =
          some (0, some (RLError.fromWaitPC e)) ∧
        ∃ pre, (rlLoop env L fuel i st processed connErr).2 =
          pre ++ [Event.waitPC n (some e)]) ∧
      (Event.waitGL n (some e) ∈ (rlLoop env L fuel i st processed connErr).2 →
        (rlLoop env L fuel i st processed connErr).1 =
          some (0, some (RLError.fromWaitGL e)) ∧
        ∃ pre, (rlLoop env L fuel i st processed connErr).2 =
          pre ++ [Event.waitGL n (some e)]) := by
  intro fuel
  induction fuel with
  | zero =>
    intro i st processed connErr n e
    constructor <;> intro hmem <;> rw [rlLoop] at hmem <;> split at hmem <;>
      simp at hmem
  | succ fuel ih =>
    intro i st processed connErr n e
    by_cases hc : processed < L ∧ connErr ≠ some GoErr.eof
    · simp only [rlLoop, if_pos hc]
      split
      · rename_i e1 heq
        constructor
        · intro hmem
          simp only [List.mem_cons, List.mem_singleton, List.not_mem_nil, or_false] at hmem
          rcases hmem with h1 | h2
          · exact absurd h1 (by simp)
          · obtain ⟨hn, he⟩ := Event.waitPC.inj h2
            obtain rfl := Option.some.inj he
            subst hn
            exact ⟨rfl, ⟨[_], rfl⟩⟩
        · intro hmem
          simp at hmem
      · split
        · rename_i e1 heq
          constructor
          · intro hmem
            simp at hmem
          · intro hmem
            simp only [List.mem_cons, List.mem_singleton, List.not_mem_nil, or_false] at hmem
            rcases hmem with h1 | h2 | h3
            · exact absurd h1 (by simp)
            · exact absurd h2 (by simp)
            · obtain ⟨hn, he⟩ := Event.waitGL.inj h3
              obtain rfl := Option.some.inj he
              subst hn
              exact ⟨rfl, ⟨[_, _], rfl⟩⟩
        · split
          · constructor <;> intro hmem <;> simp at hmem
          · constructor
            · intro hmem
              simp only [List.cons_append, List.nil_append, List.mem_cons] at hmem
              rcases hmem with h1 | h2 | h3 | h4 | h5
              · exact absurd h1 (by simp)
              · exact absurd h2 (by simp)
              · exact absurd h3 (by simp)
              · exact absurd h4 (by simp)
              · obtain ⟨hres, pre1, htr⟩ := (ih _ _ _ _ n e).1 h5
                exact ⟨hres, exists_append_tail _ htr⟩
            · intro hmem
              simp only [List.cons_append, List.nil_append, List.mem_cons] at hmem
              rcases hmem with h1 | h2 | h3 | h4 | h5
              · exact absurd h1 (by simp)
              · exact absurd h2 (by simp)
              · exact absurd h3 (by simp)
              · exact absurd h4 (by simp)
              · obtain ⟨hres, pre1, htr⟩ := (ih _ _ _ _ n e).2 h5
                exact ⟨hres, exists_append_tail _ htr⟩
          · constructor
            · intro hmem
              simp only [List.cons_append, List.nil_append, List.mem_cons] at hmem
              rcases hmem with h1 | h2 | h3 | h4 | h5
              · exact absurd h1 (by simp)
              · exact absurd h2 (by simp)
              · exact absurd h3 (by simp)
              · exact absurd h4 (by simp)
              · obtain ⟨hres, pre1, htr⟩ := (ih _ _ _ _ n e).1 h5
                exact ⟨hres, exists_append_tail _ htr⟩
            · intro hmem
              simp only [List.cons_append, List.nil_append, List.mem_cons] at hmem
              rcases hmem with h1 | h2 | h3 | h4 | h5
              · exact absurd h1 (by simp)
              · exact absurd h2 (by simp)
              · exact absurd h3 (by simp)
              · exact absurd h4 (by simp)
              · obtain ⟨hres, pre1, htr⟩ := (ih _ _ _ _ n e).2 h5
                exact ⟨hres, exists_append_tail _ htr⟩
    · simp only [rlLoop, if_neg hc]
      constructor <;> intro hmem <;> simp at hmem

/-- Environment whose per-connection WaitN is cancelled with error code 9 at
the second chunk; earlier chunks succeed and transfer one byte each. -/
def envWaitFail : Env :=
  ⟨fun _ => 5, fun _ => ⟨RateLimit.inf, 0⟩,
    fun i _ => if i = 1 then some 9 else none, fun _ _ => none,
    fun _ _ => (1, none)⟩

/-- Witness for C6: a 3-byte operation whose second chunk's per-connection
wait fails with code 9 after the first chunk transferred a byte. -/
theorem wait_error_aborts_witness :
    (rlLoop envWaitFail 3 3 0 ⟨5, pcLimiterFor 5⟩ 0 none).1 =
      some (0, some (RLError.fromWaitPC 9)) ∧
    ∃ pre, (rlLoop envWaitFail 3 3 0 ⟨5, pcLimiterFor 5⟩ 0 none).2 =
      pre ++ [Event.waitPC 2 (some 9)] :=
  (wait_error_aborts envWaitFail 3 3 0 ⟨5, pcLimiterFor 5⟩ 0 none 2 9).1 (by decide)

/-- A loop entered with connErr = io.EOF exits at once with the processed
count and io.EOF, whatever the fuel. -/
theorem rlLoop_eof (env : Env) (L fuel i : ℕ) (st : ConnState) (processed : ℕ) :
    rlLoop env L fuel i st processed (some GoErr.eof) =
      (some (processed, some (RLError.conn GoErr.eof)), []) := by
  cases fuel <;> simp [rlLoop]

/-- C7: if the delegate read/write returns a non-EOF error in any chunk, the
operation returns (0, that error); if it returns io.EOF, the loop exits and
the operation returns the total bytes the delegate transferred across all
chunks of the call (the EOF chunk included) together with io.EOF. -/
theorem conn_error_propagation (env : Env) (L : ℕ) :
    ∀ fuel i st processed connErr req k e,
      (Event.ioOp req k (some (GoErr.other e)) ∈
          (rlLoop env L fuel i st processed connErr).2 →
        (rlLoop env L fuel i st processed connErr).1 =
          some (0, some (RLError.conn (GoErr.other e)))) ∧
      (Event.ioOp req k (some GoErr.eof) ∈ (rlLoop env L fuel i st processed connErr).2 →
        (rlLoop env L fuel i st processed connErr).1 =
          some (processed + ioBytes (rlLoop env L fuel i st processed connErr).2,
            some (RLError.conn GoErr.eof))) := by
  intro fuel
  induction fuel with
  | zero =>
    intro i st processed connErr req k e
    constructor <;> intro hmem <;> rw [rlLoop] at hmem <;> split at hmem <;>
      simp at hmem
  | succ fuel ih =>
    intro i st processed connErr req k e
    by_cases hc : processed < L ∧ connErr ≠ some GoErr.eof
    · simp only [rlLoop, if_pos hc]
      split
      · constructor <;> intro hmem <;> simp at hmem
      · split
        · constructor <;> intro hmem <;> simp at hmem
        · split
          · rename_i e1 heq
            constructor
            · intro hmem
              simp only [List.mem_cons, List.mem_singleton, List.not_mem_nil,
                or_false] at hmem
              rcases hmem with h1 | h2 | h3 | h4
              · exact absurd h1 (by simp)
              · exact absurd h2 (by simp)
              · exact absurd h3 (by simp)
              · obtain ⟨hreq, hk, he⟩ := Event.ioOp.inj h4
                obtain rfl : e = e1 := by
                  have h6 := he.trans heq
                  simpa using h6
                rfl
            · intro hmem
              simp only [List.mem_cons, List.mem_singleton, List.not_mem_nil,
                or_false] at hmem
              rcases hmem with h1 | h2 | h3 | h4
              · exact absurd h1 (by simp)
              · exact absurd h2 (by simp)
              · exact absurd h3 (by simp)
              · exact absurd ((Event.ioOp.inj h4).2.2.trans heq) (by simp)
          · rename_i harms heq
            constructor
            · intro hmem
              rw [heq, rlLoop_eof] at hmem
              simp only [List.cons_append, List.nil_append, List.append_nil,
                List.mem_cons, List.not_mem_nil, or_false] at hmem
              rcases hmem with h1 | h2 | h3 | h4
              · exact absurd h1 (by simp)
              · exact absurd h2 (by simp)
              · exact absurd h3 (by simp)
              · exact absurd (Event.ioOp.inj h4).2.2 (by simp)
            · intro hmem
              rw [heq, rlLoop_eof]
              simp only [ioBytes_append, ioBytes, List.append_eq, List.nil_append,
                List.append_nil, Option.some.injEq, Prod.mk.injEq]
              exact ⟨by omega, trivial⟩
          · rename_i harms heq
            constructor
            · intro hmem
              simp only [List.cons_append, List.nil_append, List.mem_cons] at hmem
              rcases hmem with h1 | h2 | h3 | h4 | h5
              · exact absurd h1 (by simp)
              · exact absurd h2 (by simp)
              · exact absurd h3 (by simp)
              · exact absurd ((Event.ioOp.inj h4).2.2.trans heq) (by simp)
              · exact (ih _ _ _ _ req k e).1 h5
            · intro hmem
              simp only [List.cons_append, List.nil_append, List.mem_cons] at hmem
              rcases hmem with h1 | h2 | h3 | h4 | h5
              · exact absurd h1 (by simp)
              · exact absurd h2 (by simp)
              · exact absurd h3 (by simp)
              · exact absurd ((Event.ioOp.inj h4).2.2.trans heq) (by simp)
              · have hrec := (ih _ _ _ _ req k e).2 h5
                rw [hrec]
                simp only [ioBytes_append, ioBytes, List.append_eq, List.nil_append,
                  List.append_nil, Option.some.injEq, Prod.mk.injEq]
                exact ⟨by omega, trivial⟩
    · simp only [rlLoop, if_neg hc]
      constructor <;> intro hmem <;> simp at hmem

/-- Environment whose delegate fails with a non-EOF error (code 7) at the
second chunk; the first chunk transfers one byte. -/
def envConnFail : Env :=
  ⟨fun _ => -1, fun _ => ⟨RateLimit.inf, 0⟩, fun _ _ => none, fun _ _ => none,
    fun i _ => if i = 1 then (0, some (GoErr.other 7)) else (1, none)⟩

/-- Environment whose delegate reports io.EOF with one final byte at the
second chunk; the first chunk transfers one byte. -/
def envEofEnd : Env :=
  ⟨fun _ => -1, fun _ => ⟨RateLimit.inf, 0⟩, fun _ _ => none, fun _ _ => none,
    fun i _ => if i = 1 then (1, some GoErr.eof) else (1, none)⟩

/-- Witness for C7: a delegate error aborts with (0, err); a delegate EOF
ends the call with the transferred total and EOF. -/
theorem conn_error_propagation_witness :
    (rlLoop envConnFail 3 3 0 ⟨-1, pcLimiterFor (-1)⟩ 0 none).1 =
      some (0, some (RLError.conn (GoErr.other 7))) ∧
    (rlLoop envEofEnd 5 3 0 ⟨-1, pcLimiterFor (-1)⟩ 0 none).1 =
      some (0 + ioBytes (rlLoop envEofEnd 5 3 0 ⟨-1, pcLimiterFor (-1)⟩ 0 none).2,
        some (RLError.conn GoErr.eof)) :=
  ⟨(conn_error_propagation envConnFail 3 3 0 ⟨-1, pcLimiterFor (-1)⟩ 0 none 2 0 7).1
      (by decide),
    (conn_error_propagation envEofEnd 5 3 0 ⟨-1, pcLimiterFor (-1)⟩ 0 none 4 1 0).2
      (by decide)⟩

/-- Decomposition of a cons against an append-around-one-element. -/
theorem cons_append_decomp {α : Type} {a x : α} {t pre suf : List α}
    (h : a :: t = pre ++ x :: suf) :
    (pre = [] ∧ x = a ∧ suf = t) ∨ ∃ pre2, pre = a :: pre2 ∧ t = pre2 ++ x :: suf := by
  cases pre with
  | nil =>
    simp only [List.nil_append, List.cons.injEq] at h
    exact Or.inl ⟨rfl, h.1.symm, h.2.symm⟩
  | cons p ps =>
    simp only [List.cons_append, List.cons.injEq] at h
    exact Or.inr ⟨ps, by rw [h.1], h.2⟩

/-- C5: every delegate I/O is covered by tokens from both limiters: wherever
the trace of a Read/Write decomposes around a delegate event ioOp req k err,
the two events immediately before it are the successful per-connection wait
and then the successful global wait, each for exactly req tokens, and — the
delegate respecting the io contract of returning at most the requested
count — the bytes k it transferred never exceed req. -/
theorem io_covered_by_waits (env : Env) (L : ℕ)
    (hdel : ∀ j r, (env.delegate j r).1 ≤ r) :
    ∀ fuel i st processed connErr pre req k err suf,
      (rlLoop env L fuel i st processed connErr).2 =
        pre ++ Event.ioOp req k err :: suf →
      k ≤ req ∧ ∃ pre2, pre = pre2 ++ [Event.waitPC req none, Event.waitGL req none] := by
  intro fuel
  induction fuel with
  | zero =>
    intro i st processed connErr pre req k err suf htr
    rw [rlLoop] at htr
    split at htr <;> simp at htr <;>
      exact absurd htr (by simp)
  | succ fuel ih =>
    intro i st processed connErr pre req k err suf htr
    by_cases hc : processed < L ∧ connErr ≠ some GoErr.eof
    · simp only [rlLoop, if_pos hc] at htr
      split at htr
      · dsimp only at htr
        rcases cons_append_decomp htr with ⟨_, hx, _⟩ | ⟨pre2, hpre2, htr2⟩
        · exact absurd hx (by simp)
        · rcases cons_append_decomp htr2 with ⟨_, hx, _⟩ | ⟨pre3, hpre3, htr3⟩
          · exact absurd hx (by simp)
          · simp at htr3
      · split at htr
        · dsimp only at htr
          rcases cons_append_decomp htr with ⟨_, hx, _⟩ | ⟨pre2, hpre2, htr2⟩
          · exact absurd hx (by simp)
          · rcases cons_append_decomp htr2 with ⟨_, hx, _⟩ | ⟨pre3, hpre3, htr3⟩
            · exact absurd hx (by simp)
            · rcases cons_append_decomp htr3 with ⟨_, hx, _⟩ | ⟨pre4, hpre4, htr4⟩
              · exact absurd hx (by simp)
              · simp at htr4
        · split at htr
          · rename_i e1 heq
            dsimp only at htr
            rcases cons_append_decomp htr with ⟨_, hx, _⟩ | ⟨pre2, hpre2, htr2⟩
            · exact absurd hx (by simp)
            · rcases cons_append_decomp htr2 with ⟨_, hx, _⟩ | ⟨pre3, hpre3, htr3⟩
              · exact absurd hx (by simp)
              · rcases cons_append_decomp htr3 with ⟨_, hx, _⟩ | ⟨pre4, hpre4, htr4⟩
                · exact absurd hx (by simp)
                · rcases cons_append_decomp htr4 with ⟨hpre5, hx, hsuf⟩ |
                    ⟨pre5, hpre5, htr5⟩
                  · obtain ⟨hreq, hk, herr⟩ := Event.ioOp.inj hx
                    subst hreq hk herr hpre5 hpre4 hpre3 hpre2
                    exact ⟨hdel i _, ⟨[_], rfl⟩⟩
                  · simp at htr5
          · rename_i heq
            dsimp only at htr
            simp only [List.cons_append, List.nil_append] at htr
            rcases cons_append_decomp htr with ⟨_, hx, _⟩ | ⟨pre2, hpre2, htr2⟩
            · exact absurd hx (by simp)
            · rcases cons_append_decomp htr2 with ⟨_, hx, _⟩ | ⟨pre3, hpre3, htr3⟩
              · exact absurd hx (by simp)
              · rcases cons_append_decomp htr3 with ⟨_, hx, _⟩ | ⟨pre4, hpre4, htr4⟩
                · exact absurd hx (by simp)
                · rcases cons_append_decomp htr4 with ⟨hpre5, hx, hsuf⟩ |
                    ⟨pre5, hpre5, htr5⟩
                  · obtain ⟨hreq, hk, herr⟩ := Event.ioOp.inj hx
                    subst hreq hk herr hpre5 hpre4 hpre3 hpre2
                    exact ⟨hdel i _, ⟨[_], rfl⟩⟩
                  · obtain ⟨hk, pre6, hpre6⟩ := ih _ _ _ _ pre5 req k err suf htr5
                    subst hpre5 hpre4 hpre3 hpre2 hpre6
                    exact ⟨hk, ⟨_ :: _ :: _ :: _ :: pre6, rfl⟩⟩
          · rename_i heq
            dsimp only at htr
            simp only [List.cons_append, List.nil_append] at htr
            rcases cons_append_decomp htr with ⟨_, hx, _⟩ | ⟨pre2, hpre2, htr2⟩
            · exact absurd hx (by simp)
            · rcases cons_append_decomp htr2 with ⟨_, hx, _⟩ | ⟨pre3, hpre3, htr3⟩
              · exact absurd hx (by simp)
              · rcases cons_append_decomp htr3 with ⟨_, hx, _⟩ | ⟨pre4, hpre4, htr4⟩
                · exact absurd hx (by simp)
                · rcases cons_append_decomp htr4 with ⟨hpre5, hx, hsuf⟩ |
                    ⟨pre5, hpre5, htr5⟩
                  · obtain ⟨hreq, hk, herr⟩ := Event.ioOp.inj hx
                    subst hreq hk herr hpre5 hpre4 hpre3 hpre2
                    exact ⟨hdel i _, ⟨[_], rfl⟩⟩
                  · obtain ⟨hk, pre6, hpre6⟩ := ih _ _ _ _ pre5 req k err suf htr5
                    subst hpre5 hpre4 hpre3 hpre2 hpre6
                    exact ⟨hk, ⟨_ :: _ :: _ :: _ :: pre6, rfl⟩⟩
    · simp only [rlLoop, if_neg hc] at htr
      exact absurd htr (by simp)

/-- Environment with per-connection bandwidth pinned at 2, unlimited global
limiter, succeeding waits, and a delegate that transfers every requested
byte. -/
def envFull : Env :=
  ⟨fun _ => 2, fun _ => ⟨RateLimit.inf, 0⟩, fun _ _ => none, fun _ _ => none,
    fun _ r => (r, none)⟩

/-- Witness for C5: the first delegate event of a 3-byte operation under a
2-byte-per-second limit sits right after its two successful waits. -/
theorem io_covered_by_waits_witness :
    1 ≤ 1 ∧
    ∃ pre2, [Event.chunkStart 0 2 ⟨2, pcLimiterFor 2⟩ ⟨RateLimit.inf, 0⟩ 3,
        Event.waitPC 1 none, Event.waitGL 1 none] =
      pre2 ++ [Event.waitPC 1 none, Event.waitGL 1 none] :=
  io_covered_by_waits envFull 3 (fun _ _ => le_rfl) 3 0 ⟨2, pcLimiterFor 2⟩ 0 none
    [Event.chunkStart 0 2 ⟨2, pcLimiterFor 2⟩ ⟨RateLimit.inf, 0⟩ 3,
      Event.waitPC 1 none, Event.waitGL 1 none] 1 1 none
    [Event.chunkStart 1 2 ⟨2, pcLimiterFor 2⟩ ⟨RateLimit.inf, 0⟩ 2,
      Event.waitPC 2 none, Event.waitGL 2 none, Event.ioOp 2 2 none]
    (by decide)

/-- The reconfiguration step of an iteration preserves the coherence between
the cached bandwidth and the per-connection limiter configuration. -/
theorem reconcile_coherent (st : ConnState) (bw : ℤ)
    (hst : st.pcLimiter = pcLimiterFor st.pcBandwidth) :
    (if bw ≠ st.pcBandwidth then (⟨bw, pcLimiterFor bw⟩ : ConnState)
      else st).pcLimiter =
    pcLimiterFor (if bw ≠ st.pcBandwidth then (⟨bw, pcLimiterFor bw⟩ : ConnState)
      else st).pcBandwidth := by
  split
  · rfl
  · exact hst

/-- C8: at the start of every chunk iteration the connection loads the
listener's current per-connection bandwidth and reconciles its cache before
chunk sizing and token acquisition.  Wherever the trace decomposes around a
chunkStart event it records the listener's bandwidth and global limiter of
that iteration; provided the run began with a coherent state (limiter =
findLimit/findBurst of the cached bandwidth, as newConn builds it), the
recorded state's cached bandwidth equals the loaded listener value and its
limiter is the encoding of that value; and the iteration's token waits are
issued for exactly findBufferSize of that reconciled state. -/
theorem reconfiguration_before_chunk (env : Env) (L : ℕ) :
    ∀ fuel i st processed connErr,
      st.pcLimiter = pcLimiterFor st.pcBandwidth →
      ∀ pre j bw stUsed gl rem rest,
        (rlLoop env L fuel i st processed connErr).2 =
          pre ++ Event.chunkStart j bw stUsed gl rem :: rest →
        bw = env.listenerBw j ∧ gl = env.listenerGl j ∧
        stUsed.pcBandwidth = bw ∧ stUsed.pcLimiter = pcLimiterFor bw ∧
        ∃ o rest2, rest = Event.waitPC (findBufferSize stUsed.pcLimiter gl rem) o :: rest2 := by
  intro fuel
  induction fuel with
  | zero =>
    intro i st processed connErr hst pre j bw stUsed gl rem rest htr
    rw [rlLoop] at htr
    split at htr <;> simp at htr <;>
      exact absurd htr (by simp)
  | succ fuel ih =>
    intro i st processed connErr hst pre j bw stUsed gl rem rest htr
    by_cases hc : processed < L ∧ connErr ≠ some GoErr.eof
    · simp only [rlLoop, if_pos hc] at htr
      split at htr
      · rename_i e1 heq
        dsimp only at htr
        rcases cons_append_decomp htr with ⟨hpre, hx, hrest⟩ | ⟨pre2, hpre2, htr2⟩
        · obtain ⟨hj, hbw, hstu, hgl, hrem⟩ := Event.chunkStart.inj hx
          subst hj hbw hstu hgl hrem hrest
          refine ⟨rfl, rfl, ?_, ?_, ⟨some e1, [], rfl⟩⟩
          · split
            · rfl
            · rename_i hne
              push_neg at hne
              exact hne.symm
          · rw [reconcile_coherent st _ hst]
            split
            · rfl
            · rename_i hne
              push_neg at hne
              rw [hne]
        · rcases cons_append_decomp htr2 with ⟨_, hx, _⟩ | ⟨pre3, hpre3, htr3⟩
          · exact absurd hx (by simp)
          · simp at htr3
      · split at htr
        · rename_i e1 heq
          dsimp only at htr
          rcases cons_append_decomp htr with ⟨hpre, hx, hrest⟩ | ⟨pre2, hpre2, htr2⟩
          · obtain ⟨hj, hbw, hstu, hgl, hrem⟩ := Event.chunkStart.inj hx
            subst hj hbw hstu hgl hrem hrest
            refine ⟨rfl, rfl, ?_, ?_, ⟨none, _, rfl⟩⟩
            · split
              · rfl
              · rename_i hne
                push_neg at hne
                exact hne.symm
            · rw [reconcile_coherent st _ hst]
              split
              · rfl
              · rename_i hne
                push_neg at hne
                rw [hne]
          · rcases cons_append_decomp htr2 with ⟨_, hx, _⟩ | ⟨pre3, hpre3, htr3⟩
            · exact absurd hx (by simp)
            · rcases cons_append_decomp htr3 with ⟨_, hx, _⟩ | ⟨pre4, hpre4, htr4⟩
              · exact absurd hx (by simp)
              · simp at htr4
        · split at htr
          · rename_i e1 heq
            dsimp only at htr
            rcases cons_append_decomp htr with ⟨hpre, hx, hrest⟩ | ⟨pre2, hpre2, htr2⟩
            · obtain ⟨hj, hbw, hstu, hgl, hrem⟩ := Event.chunkStart.inj hx
              subst hj hbw hstu hgl hrem hrest
              refine ⟨rfl, rfl, ?_, ?_, ⟨none, _, rfl⟩⟩
              · split
                · rfl
                · rename_i hne
                  push_neg at hne
                  exact hne.symm
              · rw [reconcile_coherent st _ hst]
                split
                · rfl
                · rename_i hne
                  push_neg at hne
                  rw [hne]
            · rcases cons_append_decomp htr2 with ⟨_, hx, _⟩ | ⟨pre3, hpre3, htr3⟩
              · exact absurd hx (by simp)
              · rcases cons_append_decomp htr3 with ⟨_, hx, _⟩ | ⟨pre4, hpre4, htr4⟩
                · exact absurd hx (by simp)
                · rcases cons_append_decomp htr4 with ⟨_, hx, _⟩ | ⟨pre5, hpre5, htr5⟩
                  · exact absurd hx (by simp)
                  · simp at htr5
          · rename_i heq
            dsimp only at htr
            simp only [List.cons_append, List.nil_append] at htr
            rcases cons_append_decomp htr with ⟨hpre, hx, hrest⟩ | ⟨pre2, hpre2, htr2⟩
            · obtain ⟨hj, hbw, hstu, hgl, hrem⟩ := Event.chunkStart.inj hx
              subst hj hbw hstu hgl hrem hrest
              refine ⟨rfl, rfl, ?_, ?_, ⟨none, _, rfl⟩⟩
              · split
                · rfl
                · rename_i hne
                  push_neg at hne
                  exact hne.symm
              · rw [reconcile_coherent st _ hst]
                split
                · rfl
                · rename_i hne
                  push_neg at hne
                  rw [hne]
            · rcases cons_append_decomp htr2 with ⟨_, hx, _⟩ | ⟨pre3, hpre3, htr3⟩
              · exact absurd hx (by simp)
              · rcases cons_append_decomp htr3 with ⟨_, hx, _⟩ | ⟨pre4, hpre4, htr4⟩
                · exact absurd hx (by simp)
                · rcases cons_append_decomp htr4 with ⟨_, hx, _⟩ | ⟨pre5, hpre5, htr5⟩
                  · exact absurd hx (by simp)
                  · exact ih _ _ _ _ (reconcile_coherent st _ hst) pre5 _ _ _ _ _ _ htr5
          · rename_i heq
            dsimp only at htr
            simp only [List.cons_append, List.nil_append] at htr
            rcases cons_append_decomp htr with ⟨hpre, hx, hrest⟩ | ⟨pre2, hpre2, htr2⟩
            · obtain ⟨hj, hbw, hstu, hgl, hrem⟩ := Event.chunkStart.inj hx
              subst hj hbw hstu hgl hrem hrest
              refine ⟨rfl, rfl, ?_, ?_, ⟨none, _, rfl⟩⟩
              · split
                · rfl
                · rename_i hne
                  push_neg at hne
                  exact hne.symm
              · rw [reconcile_coherent st _ hst]
                split
                · rfl
                · rename_i hne
                  push_neg at hne
                  rw [hne]
            · rcases cons_append_decomp htr2 with ⟨_, hx, _⟩ | ⟨pre3, hpre3, htr3⟩
              · exact absurd hx (by simp)
              · rcases cons_append_decomp htr3 with ⟨_, hx, _⟩ | ⟨pre4, hpre4, htr4⟩
                · exact absurd hx (by simp)
                · rcases cons_append_decomp htr4 with ⟨_, hx, _⟩ | ⟨pre5, hpre5, htr5⟩
                  · exact absurd hx (by simp)
                  · exact ih _ _ _ _ (reconcile_coherent st _ hst) pre5 _ _ _ _ _ _ htr5
    · simp only [rlLoop, if_neg hc] at htr
      exact absurd htr (by simp)

/-- Witness for C8: the first chunk of a run under envFull records the
listener's bandwidth 2, the coherent state and the global limiter, and is
followed by the wait for its findBufferSize. -/
theorem reconfiguration_before_chunk_witness :
    (2 : ℤ) = envFull.listenerBw 0 ∧
    (⟨RateLimit.inf, 0⟩ : Limiter) = envFull.listenerGl 0 ∧
    (⟨2, pcLimiterFor 2⟩ : ConnState).pcBandwidth = 2 ∧
    (⟨2, pcLimiterFor 2⟩ : ConnState).pcLimiter = pcLimiterFor 2 ∧
    ∃ o rest2, [Event.waitPC 1 none, Event.waitGL 1 none, Event.ioOp 1 1 none,
        Event.chunkStart 1 2 ⟨2, pcLimiterFor 2⟩ ⟨RateLimit.inf, 0⟩ 2,
        Event.waitPC 2 none, Event.waitGL 2 none, Event.ioOp 2 2 none] =
      Event.waitPC (findBufferSize (⟨2, pcLimiterFor 2⟩ : ConnState).pcLimiter
        ⟨RateLimit.inf, 0⟩ 3) o :: rest2 :=
  reconfiguration_before_chunk envFull 3 3 0 ⟨2, pcLimiterFor 2⟩ 0 none rfl
    [] 0 2 ⟨2, pcLimiterFor 2⟩ ⟨RateLimit.inf, 0⟩ 3
    [Event.waitPC 1 none, Event.waitGL 1 none, Event.ioOp 1 1 none,
      Event.chunkStart 1 2 ⟨2, pcLimiterFor 2⟩ ⟨RateLimit.inf, 0⟩ 2,
      Event.waitPC 2 none, Event.waitGL 2 none, Event.ioOp 2 2 none]
    (by decide)

/-- The chunk size never exceeds the remaining byte count (for a positive
remaining count): the candidate starts at the remainder and is only ever
shrunk, and the final zero-to-one bump stays within a positive remainder. -/
theorem findBufferSize_le (C G : Limiter) (R : ℕ) (hR : 1 ≤ R) :
    findBufferSize C G R ≤ R := by
  simp only [findBufferSize]
  split_ifs with h1 h2 h3 h4 h5 h6 h7 h8 h9 h10 h11 <;> omega

/-- C10: whenever a Read or Write returns with no error, the returned count
equals the buffer length — the loop runs until the caller's buffer is fully
processed, and a short count can only be returned together with the
end-of-stream indication (or an error), never silently.  The delegate is
assumed to respect the io contract of returning at most the requested
count. -/
theorem full_count_on_success (env : Env) (L : ℕ)
    (hdel : ∀ j r, (env.delegate j r).1 ≤ r) :
    ∀ fuel i st processed connErr c, processed ≤ L →
      (rlLoop env L fuel i st processed connErr).1 = some (c, none) → c = L := by
  intro fuel
  induction fuel with
  | zero =>
    intro i st processed connErr c hple h
    rw [rlLoop] at h
    split at h
    · simp at h
    · rename_i hcond
      simp only [Option.some.injEq, Prod.mk.injEq] at h
      obtain ⟨h1, h2⟩ := h
      rcases connErr with _ | g
      · have hnl : ¬ processed < L := by
          by_contra hlt
          exact hcond ⟨hlt, by simp⟩
        omega
      · simp at h2
  | succ fuel ih =>
    intro i st processed connErr c hple h
    by_cases hc : processed < L ∧ connErr ≠ some GoErr.eof
    · simp only [rlLoop, if_pos hc] at h
      split at h
      · simp at h
      · split at h
        · simp at h
        · split at h
          · simp at h
          · rename_i heq
            dsimp only at h
            rw [rlLoop_eof] at h
            simp at h
          · rename_i heq
            dsimp only at h
            refine ih _ _ _ _ c ?_ h
            have hR : 1 ≤ L - processed := by omega
            have step := le_trans
              (hdel i (findBufferSize
                (if env.listenerBw i ≠ st.pcBandwidth
                  then (⟨env.listenerBw i, pcLimiterFor (env.listenerBw i)⟩ : ConnState)
                  else st).pcLimiter
                (env.listenerGl i) (L - processed)))
              (findBufferSize_le _ _ _ hR)
            omega
    · simp only [rlLoop, if_neg hc] at h
      simp only [Option.some.injEq, Prod.mk.injEq] at h
      obtain ⟨h1, h2⟩ := h
      rcases connErr with _ | g
      · have hnl : ¬ processed < L := by
          by_contra hlt
          exact hc ⟨hlt, by simp⟩
        omega
      · simp at h2

/-- Witness for C10: a 3-byte operation under envFull ends with no error and
the full count 3. -/
theorem full_count_on_success_witness :
    (rlLoop envFull 3 5 0 ⟨2, pcLimiterFor 2⟩ 0 none).1 = some (3, none) ∧ (3 : ℕ) = 3 :=
  ⟨by decide, full_count_on_success envFull 3 (fun _ _ => le_rfl) 5 0 ⟨2, pcLimiterFor 2⟩
    0 none 3 (by decide) (by decide)⟩
